import Mathlib

/-!
Verification of the duplicate-file finder (`src/finder.py`).

Shallow embedding conventions:

* A file path is an abstract identifier `FPath := Nat`; file contents are
  byte lists (`Content := List Nat`).
* The file system seen by the detector is a total content map
  `content : FPath → Content` together with a read oracle
  `readOk : FPath → Bool → Bool`: `readOk p b` says whether opening and
  reading file `p` for a hash with `full_scan = b` succeeds.  A failed read
  models the `OSError` that `path.open`/`read` can raise; `get_hash`
  then returns `none`, and callers that do not catch it return `none`
  themselves (the exception propagates).
* `hashlib.md5` is modelled by an abstract digest function `h : Content → D`.
  The streaming accumulator of the full scan is modelled by the byte list fed
  into it so far (`md5Update` is append, `hexdigest` applies `h` to the
  accumulated bytes).  The spec's accepted idealization that equal full
  digests prove equal content (md5 collisions are neglected) appears in the
  theorems as the hypothesis `Function.Injective h`.
* Python dicts preserve insertion order; `partial_hashes` and
  `definite_duplicates` are embedded as association lists
  `List (D × List FPath)` with the source's insert-or-append discipline
  (`addToGroup`).
* The mutating actions (`delete_duplicates`, `move_duplicates`) act on an
  explicit file-system state.  Success of the individual `unlink` /
  `shutil.move` / `os.mkdir` calls is decided by oracles (`delOk`, `moveOk`,
  `mkdirOk`); `os.mkdir` additionally fails when the directory already
  exists.  A failing call inside a `try ... except OSError` block leaves the
  state unchanged and the loop continues; a failing call outside any `try`
  block makes the whole function return `none`.
-/

namespace DupFinder

abbrev Byte := Nat

abbrev Content := List Byte

abbrev FPath := Nat

/-- The md5 streaming accumulator, modelled as the bytes fed so far;
`md5_value.update(data)` appends `data`. -/
def md5Update (acc data : Content) : Content := acc ++ data

/-- The `while data:` loop of `get_hash` with `full_scan = True`
(`src/finder.py` lines 26-29): read 4096-byte chunks until exhausted,
feeding each into the accumulator. -/
def readLoop (c acc : Content) : Content :=
  if h : c = [] then acc
  else readLoop (c.drop 4096) (md5Update acc (c.take 4096))
termination_by c.length
decreasing_by
  simp only [List.length_drop]
  exact Nat.sub_lt (List.length_pos.mpr h) (by norm_num)

/-- `get_hash(path, full_scan)` (`src/finder.py` lines 21-32) over the
abstract digest `h`.  With `full_scan = false` it hashes `f.read(4096)`,
i.e. the first 4096 bytes; with `full_scan = true` it runs the chunked
loop.  A failed read (oracle `readOk`) raises, i.e. returns `none`. -/
def get_hash {D : Type} (content : FPath → Content) (readOk : FPath → Bool → Bool)
    (h : Content → D) (p : FPath) (full_scan : Bool) : Option D :=
  if readOk p full_scan then
    if full_scan then some (h (readLoop (content p) []))
    else some (h ((content p).take 4096))
  else none

/-- Python-dict insertion for `dict`-of-lists grouping (`src/finder.py`
lines 40-43 and 62-65): append to the entry of key `k` if present,
otherwise add a new entry at the end. -/
def addToGroup {D : Type} [DecidableEq D] (groups : List (D × List FPath))
    (k : D) (p : FPath) : List (D × List FPath) :=
  match groups with
  | [] => [(k, [p])]
  | (k₂, ps) :: rest =>
    if k₂ = k then (k₂, ps ++ [p]) :: rest
    else (k₂, ps) :: addToGroup rest k p

/-- One hashing loop of `get_duplicates`: hash each file in turn and group;
a raised hashing error (`none`) propagates. -/
def groupFiles {D : Type} [DecidableEq D] (hashOf : FPath → Option D) :
    List FPath → List (D × List FPath) → Option (List (D × List FPath))
  | [], acc => some acc
  | f :: rest, acc =>
    match hashOf f with
    | none => none
    | some d => groupFiles hashOf rest (addToGroup acc d f)

/-- `get_duplicates(files)` (`src/finder.py` lines 35-69): phase 1 groups by
partial hash, files in groups of size ≥ 2 become candidates; if there are
none, return the empty dict; otherwise phase 2 groups candidates by full
hash and keeps groups of size ≥ 2. -/
def get_duplicates {D : Type} [DecidableEq D] (content : FPath → Content)
    (readOk : FPath → Bool → Bool) (h : Content → D) (files : List FPath) :
    Option (List (D × List FPath)) :=
  match groupFiles (fun f => get_hash content readOk h f false) files [] with
  | none => none
  | some h1 =>
    let cands := (h1.filter (fun g => decide (1 < g.2.length))).flatMap (fun g => g.2)
    if cands.isEmpty then some []
    else
      match groupFiles (fun f => get_hash content readOk h f true) cands [] with
      | none => none
      | some h2 => some (h2.filter (fun g => decide (1 < g.2.length)))

/-- Pure grouping (all hashes succeed): `foldl` of `addToGroup`. -/
def buildGroups {D : Type} [DecidableEq D] (hash : FPath → D)
    (files : List FPath) : List (D × List FPath) :=
  files.foldl (fun acc f => addToGroup acc (hash f) f) []

/-- First value stored under key `d`, or `[]`. -/
def valueOf {D : Type} [DecidableEq D] (d : D) :
    List (D × List FPath) → List FPath
  | [] => []
  | (k, ps) :: rest => if k = d then ps else valueOf d rest

/-- The candidate list built at `src/finder.py` lines 48-51, expressed over
the pure phase-1 grouping. -/
def candsOf {D : Type} [DecidableEq D] (hash1 : FPath → D)
    (files : List FPath) : List FPath :=
  ((buildGroups hash1 files).filter (fun g => decide (1 < g.2.length))).flatMap
    (fun g => g.2)

/-- The value `get_duplicates` computes when every read succeeds, expressed
over the pure groupings (when the candidate list is empty both phases
collapse to the empty dict, matching the early return). -/
def duplicatesPure {D : Type} [DecidableEq D] (hash1 hashF : FPath → D)
    (files : List FPath) : List (D × List FPath) :=
  (buildGroups hashF (candsOf hash1 files)).filter (fun g => decide (1 < g.2.length))

/-- One iteration of the `delete_duplicates` inner loop (`src/finder.py`
lines 112-119): `f.stat()` raises if the file is gone (state unchanged,
caught); otherwise `f.unlink()` succeeds iff `delOk f`, and only then is
the byte counter increased by the file's size. -/
def tryDelete (delOk : FPath → Bool) (st : (FPath → Option Content) × Nat)
    (f : FPath) : (FPath → Option Content) × Nat :=
  match st.1 f with
  | none => st
  | some c =>
    if delOk f then (fun x => if x = f then none else st.1 x, st.2 + c.length)
    else st

/-- `delete_duplicates(duplicates)` (`src/finder.py` lines 108-120): for
every group, try to delete every member except the first (`v[1:]`),
returning the final file-system state and the byte counter. -/
def delete_duplicates {K : Type} (delOk : FPath → Bool)
    (dups : List (K × List FPath)) (files : FPath → Option Content) :
    (FPath → Option Content) × Nat :=
  dups.foldl (fun st g => g.2.tail.foldl (tryDelete delOk) st) (files, 0)

/-- A directory name, as the list of its path components
(`output_folder.joinpath(hash_str)` appends one component). -/
abbrev DirName := List String

/-- File-system state mutated by `move_duplicates`: the set of existing
directories, the contents still at their original locations, and the log of
(subfolder, file) relocations performed. -/
structure MoveState where
  dirs : List DirName
  files : FPath → Option Content
  relocated : List (DirName × FPath)

/-- `os.mkdir(name)`: raises if the directory already exists
(`FileExistsError`) or the oracle denies creation (`OSError`). -/
def mkdirFS (mkdirOk : DirName → Bool) (dirs : List DirName) (name : DirName) :
    Option (List DirName) :=
  if name ∈ dirs then none
  else if mkdirOk name then some (dirs ++ [name]) else none

/-- One iteration of the `move_duplicates` inner loop (`src/finder.py`
lines 96-103): `file.stat()` raises if the file is gone; `shutil.move`
succeeds iff `moveOk f`, and only then are the byte and file counters
increased. -/
def tryMove (moveOk : FPath → Bool) (sub : DirName)
    (st : MoveState × Nat × Nat) (f : FPath) : MoveState × Nat × Nat :=
  match st.1.files f with
  | none => st
  | some c =>
    if moveOk f then
      (⟨st.1.dirs, fun x => if x = f then none else st.1.files x,
        st.1.relocated ++ [(sub, f)]⟩, st.2.1 + c.length, st.2.2 + 1)
    else st

/-- The per-group loop of `move_duplicates` (`src/finder.py` lines 93-103):
`os.mkdir(subfolder)` is outside the `try` block, so its failure aborts the
whole function (`none`); per-file failures are caught by `tryMove`. -/
def moveGroups (mkdirOk : DirName → Bool) (moveOk : FPath → Bool)
    (out : DirName) :
    List (String × List FPath) → MoveState × Nat × Nat →
      Option (MoveState × Nat × Nat)
  | [], st => some st
  | (d, fs) :: rest, st =>
    match mkdirFS mkdirOk st.1.dirs (out ++ [d]) with
    | none => none
    | some dirs2 =>
      moveGroups mkdirOk moveOk out rest
        (fs.foldl (tryMove moveOk (out ++ [d]))
          (⟨dirs2, st.1.files, st.1.relocated⟩, st.2))

/-- `move_duplicates(duplicates, output_folder)` (`src/finder.py` lines
89-105): `os.mkdir(output_folder)` first — uncaught, so its failure aborts
before anything is relocated — then the per-group loop with counters
starting at 0. -/
def move_duplicates (mkdirOk : DirName → Bool) (moveOk : FPath → Bool)
    (dups : List (String × List FPath)) (files : FPath → Option Content)
    (dirs : List DirName) (out : DirName) : Option (MoveState × Nat × Nat) :=
  match mkdirFS mkdirOk dirs out with
  | none => none
  | some dirs2 => moveGroups mkdirOk moveOk out dups (⟨dirs2, files, []⟩, 0, 0)

/-- Total size of the files in `L` that the delete/move loops succeed on:
the contribution of `f` is its size when it exists and the oracle allows
the operation, and 0 otherwise. -/
def sizeSum (files : FPath → Option Content) (ok : FPath → Bool)
    (L : List FPath) : Nat :=
  (L.map (fun f =>
    match files f with
    | some c => if ok f then c.length else 0
    | none => 0)).sum

/-- Number of files in `L` the move loop succeeds on. -/
def countSucc (files : FPath → Option Content) (ok : FPath → Bool)
    (L : List FPath) : Nat :=
  (L.filter (fun f => (files f).isSome && ok f)).length

/-! ### Infrastructure lemmas -/

theorem readLoop_eq_aux : ∀ (n : Nat) (c : Content), c.length ≤ n →
    ∀ acc, readLoop c acc = acc ++ c := by
  intro n
  induction n with
  | zero =>
    intro c hc acc
    have hc0 : c = [] := List.length_eq_zero.mp (Nat.le_zero.mp hc)
    rw [readLoop]
    simp [hc0]
  | succ n ih =>
    intro c hc acc
    rw [readLoop]
    by_cases hc0 : c = []
    · simp [hc0]
    · simp only [hc0, dite_false]
      have hd : (c.drop 4096).length ≤ n := by
        simp only [List.length_drop]
        omega
      rw [ih (c.drop 4096) hd]
      simp [md5Update]

/-- The streaming full scan digests exactly the whole content. -/
theorem readLoop_eq (c acc : Content) : readLoop c acc = acc ++ c :=
  readLoop_eq_aux c.length c (Nat.le_refl _) acc

section Groups

variable {D : Type} [DecidableEq D]

theorem valueOf_addToGroup (groups : List (D × List FPath)) (k : D) (p : FPath)
    (d : D) : valueOf d (addToGroup groups k p) =
      if k = d then valueOf d groups ++ [p] else valueOf d groups := by
  induction groups with
  | nil =>
    by_cases hkd : k = d <;> simp [addToGroup, valueOf, hkd]
  | cons g rest ih =>
    obtain ⟨k₂, ps⟩ := g
    by_cases hk : k₂ = k
    · subst hk
      by_cases hkd : k₂ = d <;> simp [addToGroup, valueOf, hkd]
    · by_cases hkd : k₂ = d
      · subst hkd
        have hk2 : ¬ k = k₂ := fun hh => hk hh.symm
        simp [addToGroup, hk, valueOf, hk2]
      · simp [addToGroup, hk, valueOf, hkd, ih]

theorem keys_addToGroup (groups : List (D × List FPath)) (k : D) (p : FPath) :
    (addToGroup groups k p).map (fun g => g.1) =
      if k ∈ groups.map (fun g => g.1) then groups.map (fun g => g.1)
      else groups.map (fun g => g.1) ++ [k] := by
  induction groups with
  | nil => simp [addToGroup]
  | cons g rest ih =>
    obtain ⟨k₂, ps⟩ := g
    by_cases hk : k₂ = k
    · subst hk
      simp [addToGroup]
    · have hne : ¬ k = k₂ := fun hh => hk hh.symm
      by_cases hmem : k ∈ rest.map (fun g => g.1) <;>
        simp [addToGroup, hk, ih, hmem, hne]

theorem nodupKeys_addToGroup {groups : List (D × List FPath)} (k : D)
    (p : FPath) (hnd : (groups.map (fun g => g.1)).Nodup) :
    ((addToGroup groups k p).map (fun g => g.1)).Nodup := by
  rw [keys_addToGroup]
  by_cases hmem : k ∈ groups.map (fun g => g.1)
  · simpa [hmem]
  · simp only [hmem, if_false]
    refine List.Nodup.append hnd (List.nodup_singleton k) ?_
    intro a ha hb
    rw [List.mem_singleton] at hb
    exact hmem (hb ▸ ha)

theorem snd_ne_nil_addToGroup {groups : List (D × List FPath)} (k : D)
    (p : FPath) (hne : ∀ g ∈ groups, g.2 ≠ []) :
    ∀ g ∈ addToGroup groups k p, g.2 ≠ [] := by
  induction groups with
  | nil =>
    intro g hg
    simp only [addToGroup, List.mem_singleton] at hg
    subst hg
    simp
  | cons g₀ rest ih =>
    obtain ⟨k₂, ps⟩ := g₀
    intro g hg
    by_cases hk : k₂ = k
    · subst hk
      simp only [addToGroup, if_true, List.mem_cons] at hg
      rcases hg with hg | hg
      · subst hg
        simp
      · exact hne g (List.mem_cons_of_mem _ hg)
    · simp only [addToGroup, hk, if_false, List.mem_cons] at hg
      rcases hg with hg | hg
      · subst hg
        exact hne (k₂, ps) (List.mem_cons_self _ _)
      · exact ih (fun g' hg' => hne g' (List.mem_cons_of_mem _ hg')) g hg

theorem valueOf_mem {d : D} {groups : List (D × List FPath)}
    (hne : valueOf d groups ≠ []) : (d, valueOf d groups) ∈ groups := by
  induction groups with
  | nil => simp [valueOf] at hne
  | cons g rest ih =>
    obtain ⟨k, ps⟩ := g
    by_cases hk : k = d
    · subst hk
      simp [valueOf]
    · simp only [valueOf, hk, if_false] at hne ⊢
      exact List.mem_cons_of_mem _ (ih hne)

theorem valueOf_of_mem {d : D} {ps : List FPath}
    {groups : List (D × List FPath)}
    (hnd : (groups.map (fun g => g.1)).Nodup) (hmem : (d, ps) ∈ groups) :
    valueOf d groups = ps := by
  induction groups with
  | nil => simp at hmem
  | cons g rest ih =>
    obtain ⟨k, qs⟩ := g
    simp only [List.map_cons, List.nodup_cons] at hnd
    rcases List.mem_cons.mp hmem with hg | hg
    · rw [Prod.ext_iff] at hg
      obtain ⟨h1, h2⟩ := hg
      simp only at h1 h2
      subst h1
      simp [valueOf, h2]
    · have hkd : k ≠ d := by
        intro hh
        subst hh
        exact hnd.1 (List.mem_map.mpr ⟨(k, ps), hg, rfl⟩)
      simp only [valueOf, hkd, if_false]
      exact ih hnd.2 hg

theorem valueOf_foldl (hash : FPath → D) (files : List FPath)
    (acc : List (D × List FPath)) (d : D) :
    valueOf d (files.foldl (fun a f => addToGroup a (hash f) f) acc) =
      valueOf d acc ++ files.filter (fun f => decide (hash f = d)) := by
  induction files generalizing acc with
  | nil => simp
  | cons f rest ih =>
    simp only [List.foldl_cons, ih, valueOf_addToGroup, List.filter_cons]
    by_cases hfd : hash f = d
    · simp [hfd]
    · simp [hfd]

theorem nodupKeys_foldl (hash : FPath → D) (files : List FPath)
    (acc : List (D × List FPath)) (hnd : (acc.map (fun g => g.1)).Nodup) :
    ((files.foldl (fun a f => addToGroup a (hash f) f) acc).map
      (fun g => g.1)).Nodup := by
  induction files generalizing acc with
  | nil => simpa
  | cons f rest ih =>
    simp only [List.foldl_cons]
    exact ih _ (nodupKeys_addToGroup _ _ hnd)

theorem snd_ne_nil_foldl (hash : FPath → D) (files : List FPath)
    (acc : List (D × List FPath)) (hne : ∀ g ∈ acc, g.2 ≠ []) :
    ∀ g ∈ files.foldl (fun a f => addToGroup a (hash f) f) acc, g.2 ≠ [] := by
  induction files generalizing acc with
  | nil =>
    simp only [List.foldl_nil]
    exact hne
  | cons f rest ih =>
    simp only [List.foldl_cons]
    exact ih _ (snd_ne_nil_addToGroup _ _ hne)

theorem nodupKeys_buildGroups (hash : FPath → D) (files : List FPath) :
    ((buildGroups hash files).map (fun g => g.1)).Nodup :=
  nodupKeys_foldl hash files [] (by simp)

theorem valueOf_buildGroups (hash : FPath → D) (files : List FPath) (d : D) :
    valueOf d (buildGroups hash files) =
      files.filter (fun f => decide (hash f = d)) := by
  simpa [valueOf] using valueOf_foldl hash files [] d

/-- Every group the grouping loop builds is exactly the (order-preserving)
sublist of the input files whose hash is the group's key. -/
theorem group_eq_filter {hash : FPath → D} {files : List FPath} {d : D}
    {ps : List FPath} (hmem : (d, ps) ∈ buildGroups hash files) :
    ps = files.filter (fun f => decide (hash f = d)) := by
  have hv := valueOf_of_mem (nodupKeys_buildGroups hash files) hmem
  rw [← hv, valueOf_buildGroups]

theorem mem_buildGroups_self {hash : FPath → D} {files : List FPath}
    {f : FPath} (hf : f ∈ files) :
    (hash f, files.filter (fun f₂ => decide (hash f₂ = hash f))) ∈
      buildGroups hash files := by
  have hne : valueOf (hash f) (buildGroups hash files) ≠ [] := by
    rw [valueOf_buildGroups]
    intro hh
    have := (List.filter_eq_nil_iff.mp hh) f hf
    simp at this
  have := valueOf_mem hne
  rwa [valueOf_buildGroups] at this

theorem mem_group_spec {hash : FPath → D} {files : List FPath}
    {g : D × List FPath} (hg : g ∈ buildGroups hash files) {f : FPath}
    (hf : f ∈ g.2) : f ∈ files ∧ hash f = g.1 := by
  obtain ⟨d, ps⟩ := g
  rw [group_eq_filter hg] at hf
  have := List.mem_filter.mp hf
  simpa using this

theorem groupFiles_eq_foldl {hashOf : FPath → Option D} (hash : FPath → D)
    (files : List FPath) (acc : List (D × List FPath))
    (hh : ∀ f ∈ files, hashOf f = some (hash f)) :
    groupFiles hashOf files acc =
      some (files.foldl (fun a f => addToGroup a (hash f) f) acc) := by
  induction files generalizing acc with
  | nil => simp [groupFiles]
  | cons f rest ih =>
    have hf := hh f (List.mem_cons_self _ _)
    simp only [groupFiles, hf, List.foldl_cons]
    exact ih _ (fun f₂ hf₂ => hh f₂ (List.mem_cons_of_mem _ hf₂))

theorem groupFiles_eq_none {hashOf : FPath → Option D} {files : List FPath}
    {f : FPath} (hf : f ∈ files) (hnone : hashOf f = none) :
    ∀ acc, groupFiles hashOf files acc = none := by
  induction files with
  | nil => simp at hf
  | cons f₂ rest ih =>
    intro acc
    rcases List.mem_cons.mp hf with hf₂ | hf₂
    · subst hf₂
      simp [groupFiles, hnone]
    · cases hcase : hashOf f₂ with
      | none => simp [groupFiles, hcase]
      | some d => simp [groupFiles, hcase, ih hf₂]

end Groups

theorem length_le_one_of_nodup_const {α : Type} {l : List α} {d : α}
    (hnd : l.Nodup) (hc : ∀ x ∈ l, x = d) : l.length ≤ 1 := by
  rcases l with _ | ⟨a, _ | ⟨b, t⟩⟩
  · simp
  · simp
  · exfalso
    have ha : a = d := hc a (by simp)
    have hb : b = d := hc b (by simp)
    simp only [List.nodup_cons, List.mem_cons] at hnd
    exact hnd.1 (Or.inl (ha.trans hb.symm))

theorem one_lt_length_of_mem_ne {α : Type} {l : List α} {p q : α}
    (hp : p ∈ l) (hq : q ∈ l) (hne : p ≠ q) : 1 < l.length := by
  rcases l with _ | ⟨a, _ | ⟨b, t⟩⟩
  · simp at hp
  · simp only [List.mem_singleton] at hp hq
    exact absurd (hp.trans hq.symm) hne
  · simp only [List.length_cons]
    omega

theorem filter_hash_length_le_one {D : Type} [DecidableEq D]
    {hash : FPath → D} {files : List FPath}
    (hnd : (files.map hash).Nodup) (d : D) :
    (files.filter (fun f => decide (hash f = d))).length ≤ 1 := by
  set l := files.filter (fun f => decide (hash f = d)) with hl
  have hsub : (l.map hash).Sublist (files.map hash) :=
    List.Sublist.map hash (List.filter_sublist files)
  have hnd2 : (l.map hash).Nodup := hnd.sublist hsub
  have hc : ∀ x ∈ l.map hash, x = d := by
    intro x hx
    obtain ⟨f, hf, hfx⟩ := List.mem_map.mp hx
    have := (List.mem_filter.mp (hl ▸ hf)).2
    simp only [decide_eq_true_eq] at this
    rw [← hfx, this]
  have := length_le_one_of_nodup_const hnd2 hc
  simpa using this

theorem get_hash_partial_eq {D : Type} (content : FPath → Content)
    (readOk : FPath → Bool → Bool) (h : Content → D) (p : FPath)
    (hro : readOk p false = true) :
    get_hash content readOk h p false = some (h ((content p).take 4096)) := by
  simp [get_hash, hro]

theorem get_hash_full_eq {D : Type} (content : FPath → Content)
    (readOk : FPath → Bool → Bool) (h : Content → D) (p : FPath)
    (hro : readOk p true = true) :
    get_hash content readOk h p true = some (h (content p)) := by
  simp [get_hash, hro, readLoop_eq]

section Detection

variable {D : Type} [DecidableEq D]

/-- When every read succeeds, `get_duplicates` returns exactly the pure
two-phase grouping. -/
theorem get_duplicates_eq_pure (content : FPath → Content)
    (readOk : FPath → Bool → Bool) (h : Content → D)
    (hro : ∀ p b, readOk p b = true) (files : List FPath) :
    get_duplicates content readOk h files =
      some (duplicatesPure (fun f => h ((content f).take 4096))
        (fun f => h (content f)) files) := by
  unfold get_duplicates
  rw [groupFiles_eq_foldl (fun f => h ((content f).take 4096)) files []
    (fun f _ => get_hash_partial_eq content readOk h f (hro f false))]
  have hbg : List.foldl
      (fun a f => addToGroup a (h ((content f).take 4096)) f) [] files =
      buildGroups (fun f => h ((content f).take 4096)) files := rfl
  simp only [hbg]
  have hcand : ((buildGroups (fun f => h ((content f).take 4096))
        files).filter (fun g => decide (1 < g.2.length))).flatMap
      (fun g => g.2) = candsOf (fun f => h ((content f).take 4096)) files := rfl
  simp only [hcand]
  by_cases hc : (candsOf (fun f => h ((content f).take 4096)) files).isEmpty
  · have hcnil := List.isEmpty_iff.mp hc
    simp only [hc, if_true, duplicatesPure, hcnil]
    simp [buildGroups]
  · simp only [hc, if_false]
    rw [groupFiles_eq_foldl (fun f => h (content f))
      (candsOf (fun f => h ((content f).take 4096)) files) []
      (fun f _ => get_hash_full_eq content readOk h f (hro f true))]
    simp only [duplicatesPure]
    rfl

/-- The candidate list contains exactly the files whose partial hash is
shared by at least two entries of the input list. -/
theorem mem_candsOf {hash1 : FPath → D} {files : List FPath} {f : FPath} :
    f ∈ candsOf hash1 files ↔ f ∈ files ∧
      1 < (files.filter (fun f₂ => decide (hash1 f₂ = hash1 f))).length := by
  constructor
  · intro hf
    obtain ⟨g, hg, hfg⟩ := List.mem_flatMap.mp hf
    have hg2 := List.mem_filter.mp hg
    obtain ⟨hgmem, hglen⟩ := hg2
    have hspec := mem_group_spec hgmem hfg
    obtain ⟨hffiles, hhash⟩ := hspec
    refine ⟨hffiles, ?_⟩
    obtain ⟨d, ps⟩ := g
    simp only at hhash
    subst hhash
    have hps := group_eq_filter hgmem
    simp only [decide_eq_true_eq] at hglen
    rw [hps] at hglen
    simpa using hglen
  · intro ⟨hffiles, hlen⟩
    refine List.mem_flatMap.mpr
      ⟨(hash1 f, files.filter (fun f₂ => decide (hash1 f₂ = hash1 f))), ?_, ?_⟩
    · refine List.mem_filter.mpr ⟨mem_buildGroups_self hffiles, ?_⟩
      simpa using hlen
    · exact List.mem_filter.mpr ⟨hffiles, by simp⟩

end Detection

theorem sublist_strip_left {α : Type} {s l₁ l₂ : List α}
    (hs : s.Sublist (l₁ ++ l₂)) (hout : ∀ x ∈ s, x ∉ l₁) : s.Sublist l₂ := by
  induction l₁ with
  | nil => simpa using hs
  | cons a t ih =>
    have ha : a ∉ s := fun hmem => hout a hmem (by simp)
    rw [List.cons_append, List.sublist_cons_iff] at hs
    rcases hs with hs | ⟨r, hr, _⟩
    · exact ih hs (fun x hx hxt => hout x hx (List.mem_cons_of_mem _ hxt))
    · exact absurd (hr ▸ List.mem_cons_self a r) ha

theorem sublist_strip_right {α : Type} {s l₁ l₂ : List α}
    (hs : s.Sublist (l₁ ++ l₂)) (hout : ∀ x ∈ s, x ∉ l₂) : s.Sublist l₁ := by
  rw [← List.reverse_sublist] at hs ⊢
  rw [List.reverse_append] at hs
  exact sublist_strip_left hs (fun x hx => by
    rw [List.mem_reverse] at hx ⊢
    exact hout x hx)

section MainDetection

variable {D : Type} [DecidableEq D]

/-- Members of a phase-2 group all carry the group's key as full hash. -/
theorem dupsPure_mem_hash {hash1 hashF : FPath → D} {files : List FPath}
    {g : D × List FPath} (hg : g ∈ duplicatesPure hash1 hashF files)
    {f : FPath} (hf : f ∈ g.2) :
    f ∈ candsOf hash1 files ∧ hashF f = g.1 :=
  mem_group_spec (List.mem_filter.mp hg).1 hf

/-- Each returned group is the in-order restriction of the input list to
the files with the group's content. -/
theorem dupsPure_group_sublist {content : FPath → Content} {h : Content → D}
    (hinj : Function.Injective h) {files : List FPath}
    {g : D × List FPath}
    (hg : g ∈ duplicatesPure (fun f => h ((content f).take 4096))
      (fun f => h (content f)) files) : g.2.Sublist files := by
  rcases List.eq_nil_or_concat g.2 with hnil | ⟨gs, f₀, hne⟩
  · rw [hnil]
    exact List.nil_sublist files
  · have hf₀ : f₀ ∈ g.2 := by
      rw [hne]
      simp
    obtain ⟨hf₀c, hf₀h⟩ := dupsPure_mem_hash hg hf₀
    -- the phase-1 group G that produced candidate f₀
    obtain ⟨G, hGf, hf₀G⟩ := List.mem_flatMap.mp hf₀c
    have hGmem : G ∈ buildGroups (fun f => h ((content f).take 4096)) files :=
      (List.mem_filter.mp hGf).1
    have hG1 : (fun f => h ((content f).take 4096)) f₀ = G.1 :=
      (mem_group_spec hGmem hf₀G).2
    -- every member of g.2 has the content of f₀, hence f₀'s partial hash
    have hcontent : ∀ x ∈ g.2, content x = content f₀ := by
      intro x hx
      obtain ⟨_, hxh⟩ := dupsPure_mem_hash hg hx
      exact hinj (hxh.trans hf₀h.symm)
    have hhash1 : ∀ x ∈ g.2, h ((content x).take 4096) = G.1 := by
      intro x hx
      rw [hcontent x hx]
      exact hG1
    -- split the filtered phase-1 groups around G
    obtain ⟨l₁, l₂, hsplit⟩ := List.append_of_mem hGf
    have hkeysnd : (((buildGroups (fun f => h ((content f).take 4096))
        files).filter (fun g₂ => decide (1 < g₂.2.length))).map
        (fun g₂ => g₂.1)).Nodup :=
      (nodupKeys_buildGroups _ files).sublist
        (List.Sublist.map _ (List.filter_sublist _))
    rw [hsplit] at hkeysnd
    have hkeysnd2 : G.1 ∉ (l₁.map (fun g₂ => g₂.1)) ∧
        G.1 ∉ (l₂.map (fun g₂ => g₂.1)) := by
      rw [List.map_append, List.map_cons] at hkeysnd
      have := List.nodup_middle.mp hkeysnd
      simp only [List.nodup_cons, List.mem_append] at this
      exact ⟨fun hmem => this.1 (Or.inl hmem), fun hmem => this.1 (Or.inr hmem)⟩
    -- members of g.2 appear only in G's slice of the candidate list
    have houtside : ∀ (l : List (D × List FPath)),
        G.1 ∉ (l.map (fun g₂ => g₂.1)) →
        (∀ piece ∈ l, piece ∈ (buildGroups
          (fun f => h ((content f).take 4096)) files).filter
            (fun g₂ => decide (1 < g₂.2.length))) →
        ∀ x ∈ g.2, x ∉ l.flatMap (fun g₂ => g₂.2) := by
      intro l hkey hpieces x hx hmem
      obtain ⟨piece, hpl, hxp⟩ := List.mem_flatMap.mp hmem
      have hpmem := (List.mem_filter.mp (hpieces piece hpl)).1
      have := (mem_group_spec hpmem hxp).2
      rw [hhash1 x hx] at this
      exact hkey (List.mem_map.mpr ⟨piece, hpl, this.symm⟩)
    have hsub : g.2.Sublist (candsOf (fun f => h ((content f).take 4096))
        files) := by
      have := group_eq_filter (List.mem_filter.mp hg).1
      rw [this]
      exact List.filter_sublist _
    rw [candsOf, hsplit, List.flatMap_append, List.flatMap_cons] at hsub
    have hsub2 := sublist_strip_left hsub
      (houtside l₁ hkeysnd2.1
        (fun piece hp => hsplit ▸ List.mem_append_left _ hp))
    have hsub3 := sublist_strip_right hsub2
      (houtside l₂ hkeysnd2.2
        (fun piece hp => hsplit ▸ List.mem_append_right _
          (List.mem_cons_of_mem _ hp)))
    have hGsub : G.2.Sublist files := by
      rw [group_eq_filter hGmem]
      exact List.filter_sublist files
    exact hsub3.trans hGsub

end MainDetection

/-! ### Claim C1: grouped together iff byte-identical -/

/-- Claim C1: two distinct input files end up in the same group of the
result of `get_duplicates` iff their full byte content is identical (in
particular, files agreeing on the first 4096 bytes but differing later are
not grouped).  Digest collisions, which the spec accepts as negligible, are
ruled out by the injectivity hypothesis on the abstract digest `h`. -/
theorem grouped_iff_identical {D : Type} [DecidableEq D]
    (content : FPath → Content) (readOk : FPath → Bool → Bool)
    (h : Content → D) (hinj : Function.Injective h)
    (hro : ∀ p b, readOk p b = true) (files : List FPath) (p q : FPath)
    (hp : p ∈ files) (hq : q ∈ files) (hpq : p ≠ q) :
    ∃ res, get_duplicates content readOk h files = some res ∧
      ((∃ g, g ∈ res ∧ p ∈ g.2 ∧ q ∈ g.2) ↔ content p = content q) := by
  refine ⟨duplicatesPure (fun f => h ((content f).take 4096))
    (fun f => h (content f)) files,
    get_duplicates_eq_pure content readOk h hro files, ?_⟩
  constructor
  · rintro ⟨g, hg, hpg, hqg⟩
    have h₁ := (dupsPure_mem_hash hg hpg).2
    have h₂ := (dupsPure_mem_hash hg hqg).2
    exact hinj (h₁.trans h₂.symm)
  · intro hceq
    have hash1pq : h ((content q).take 4096) = h ((content p).take 4096) := by
      rw [hceq]
    have hmemfilter : ∀ r ∈ files, h ((content r).take 4096) =
        h ((content p).take 4096) → r ∈ files.filter
        (fun f₂ => decide (h ((content f₂).take 4096) =
          h ((content p).take 4096))) := by
      intro r hr hrh
      exact List.mem_filter.mpr ⟨hr, by simp [hrh]⟩
    have hplen : 1 < (files.filter
        (fun f₂ => decide (h ((content f₂).take 4096) =
          h ((content p).take 4096)))).length :=
      one_lt_length_of_mem_ne (hmemfilter p hp rfl) (hmemfilter q hq hash1pq)
        hpq
    have hpc : p ∈ candsOf (fun f => h ((content f).take 4096)) files :=
      mem_candsOf.mpr ⟨hp, hplen⟩
    have hqc : q ∈ candsOf (fun f => h ((content f).take 4096)) files := by
      refine mem_candsOf.mpr ⟨hq, ?_⟩
      have hsame : (fun f₂ => decide (h ((content f₂).take 4096) =
            h ((content q).take 4096))) = (fun f₂ =>
            decide (h ((content f₂).take 4096) =
              h ((content p).take 4096))) := by
        funext f₂
        rw [hash1pq]
      rw [hsame]
      exact hplen
    set cands := candsOf (fun f => h ((content f).take 4096)) files with hcands
    have hpmem : p ∈ cands.filter
        (fun f₂ => decide (h (content f₂) = h (content p))) :=
      List.mem_filter.mpr ⟨hpc, by simp⟩
    have hqmem : q ∈ cands.filter
        (fun f₂ => decide (h (content f₂) = h (content p))) :=
      List.mem_filter.mpr ⟨hqc, by simp [hceq]⟩
    refine ⟨(h (content p), cands.filter
      (fun f₂ => decide (h (content f₂) = h (content p)))), ?_, hpmem, hqmem⟩
    refine List.mem_filter.mpr ⟨mem_buildGroups_self hpc, ?_⟩
    simpa using one_lt_length_of_mem_ne hpmem hqmem hpq

theorem grouped_iff_identical_witness :
    ∃ res, get_duplicates
        (fun p => if p = 0 then [1] else if p = 1 then [1] else [2])
        (fun _ _ => true) (fun c => c) [0, 1, 2] = some res ∧
      ((∃ g, g ∈ res ∧ 0 ∈ g.2 ∧ 1 ∈ g.2) ↔
        (fun p => if p = 0 then ([1] : Content) else if p = 1 then [1]
          else [2]) 0 =
        (fun p => if p = 0 then ([1] : Content) else if p = 1 then [1]
          else [2]) 1) :=
  grouped_iff_identical
    (fun p => if p = 0 then [1] else if p = 1 then [1] else [2])
    (fun _ _ => true) (fun c => c) (fun a b hab => hab) (fun _ _ => rfl)
    [0, 1, 2] 0 1 (by decide) (by decide) (by decide)

/-! ### Claim C4: shape of the returned grouping -/

/-- Claim C4: every group returned by `get_duplicates` has at least two
members, no file occurs in two different groups, and within each group the
files keep the order of the input list (the group is a sublist of the
enumeration, no sorting). -/
theorem duplicateSet_invariants {D : Type} [DecidableEq D]
    (content : FPath → Content) (readOk : FPath → Bool → Bool)
    (h : Content → D) (hinj : Function.Injective h)
    (hro : ∀ p b, readOk p b = true) (files : List FPath)
    (hnd : files.Nodup) :
    ∃ res, get_duplicates content readOk h files = some res ∧
      ∀ g ∈ res, 1 < g.2.length ∧ g.2.Sublist files ∧
        ∀ g' ∈ res, ∀ f, f ∈ g.2 → f ∈ g'.2 → g = g' := by
  refine ⟨duplicatesPure (fun f => h ((content f).take 4096))
    (fun f => h (content f)) files,
    get_duplicates_eq_pure content readOk h hro files, ?_⟩
  intro g hg
  refine ⟨?_, dupsPure_group_sublist hinj hg, ?_⟩
  · have := (List.mem_filter.mp hg).2
    simpa using this
  · intro g' hg' f hf hf'
    have hkey : g.1 = g'.1 := by
      have h₁ := (dupsPure_mem_hash hg hf).2
      have h₂ := (dupsPure_mem_hash hg' hf').2
      rw [← h₁, ← h₂]
    have hgm := (List.mem_filter.mp hg).1
    have hgm' := (List.mem_filter.mp hg').1
    have hval : g.2 = g'.2 := by
      rw [group_eq_filter hgm, group_eq_filter hgm', hkey]
    exact Prod.ext hkey hval

theorem duplicateSet_invariants_witness :
    ∃ res, get_duplicates
        (fun p => if p = 0 then [1] else if p = 1 then [1] else [2])
        (fun _ _ => true) (fun c => c) [0, 1, 2] = some res ∧
      ∀ g ∈ res, 1 < g.2.length ∧ g.2.Sublist [0, 1, 2] ∧
        ∀ g' ∈ res, ∀ f, f ∈ g.2 → f ∈ g'.2 → g = g' :=
  duplicateSet_invariants
    (fun p => if p = 0 then [1] else if p = 1 then [1] else [2])
    (fun _ _ => true) (fun c => c) (fun a b hab => hab) (fun _ _ => rfl)
    [0, 1, 2] (by decide)

/-! ### Behaviour of the delete loop -/

theorem tryDelete_of_none {delOk : FPath → Bool}
    {st : (FPath → Option Content) × Nat} {f : FPath} (hn : st.1 f = none) :
    tryDelete delOk st f = st := by
  simp [tryDelete, hn]

theorem tryDelete_of_notok {delOk : FPath → Bool}
    {st : (FPath → Option Content) × Nat} {f : FPath}
    (hok : delOk f = false) : tryDelete delOk st f = st := by
  unfold tryDelete
  cases st.1 f <;> simp [hok]

theorem tryDelete_fst_ne (delOk : FPath → Bool)
    (st : (FPath → Option Content) × Nat) (f x : FPath) (hne : x ≠ f) :
    (tryDelete delOk st f).1 x = st.1 x := by
  unfold tryDelete
  cases st.1 f with
  | none => rfl
  | some c =>
    by_cases hok : delOk f <;> simp [hok, hne]

theorem tryDelete_snd (delOk : FPath → Bool)
    (st : (FPath → Option Content) × Nat) (f : FPath) :
    (tryDelete delOk st f).2 = st.2 +
      (match st.1 f with
       | some c => if delOk f then c.length else 0
       | none => 0) := by
  unfold tryDelete
  cases hc : st.1 f with
  | none => simp
  | some c =>
    by_cases hok : delOk f <;> simp [hok]

theorem foldl_tryDelete_not_mem {delOk : FPath → Bool} {L : List FPath}
    {f : FPath} (hf : f ∉ L) (st : (FPath → Option Content) × Nat) :
    (L.foldl (tryDelete delOk) st).1 f = st.1 f := by
  induction L generalizing st with
  | nil => rfl
  | cons g rest ih =>
    have hne : f ≠ g := fun hh => hf (hh ▸ List.mem_cons_self g rest)
    have hrest : f ∉ rest := fun hh => hf (List.mem_cons_of_mem _ hh)
    simp only [List.foldl_cons]
    rw [ih hrest, tryDelete_fst_ne delOk st g f hne]

theorem foldl_tryDelete_mem_none {delOk : FPath → Bool} {L : List FPath}
    (hnd : L.Nodup) {f : FPath} (hf : f ∈ L) (hok : delOk f = true)
    (st : (FPath → Option Content) × Nat) {c : Content}
    (hc : st.1 f = some c) : (L.foldl (tryDelete delOk) st).1 f = none := by
  induction L generalizing st c with
  | nil => simp at hf
  | cons g rest ih =>
    simp only [List.nodup_cons] at hnd
    simp only [List.foldl_cons]
    rcases List.mem_cons.mp hf with hfg | hfr
    · subst hfg
      have hstep : (tryDelete delOk st f).1 f = none := by
        simp [tryDelete, hc, hok]
      rw [foldl_tryDelete_not_mem hnd.1 _, hstep]
    · have hne : f ≠ g := fun hh => hnd.1 (hh ▸ hfr)
      exact ih hnd.2 hfr _ ((tryDelete_fst_ne delOk st g f hne).trans hc)

theorem sizeSum_congr {files files₂ : FPath → Option Content}
    {ok : FPath → Bool} {L : List FPath}
    (hh : ∀ f ∈ L, files f = files₂ f) :
    sizeSum files ok L = sizeSum files₂ ok L := by
  unfold sizeSum
  rw [List.map_congr_left]
  intro f hf
  rw [hh f hf]

theorem sizeSum_cons (files : FPath → Option Content) (ok : FPath → Bool)
    (f : FPath) (L : List FPath) :
    sizeSum files ok (f :: L) =
      (match files f with
       | some c => if ok f then c.length else 0
       | none => 0) + sizeSum files ok L := by
  simp [sizeSum]

theorem sizeSum_append (files : FPath → Option Content) (ok : FPath → Bool)
    (L₁ L₂ : List FPath) :
    sizeSum files ok (L₁ ++ L₂) = sizeSum files ok L₁ + sizeSum files ok L₂ := by
  simp [sizeSum]

theorem foldl_tryDelete_count (delOk : FPath → Bool) {L : List FPath}
    (hnd : L.Nodup) (st : (FPath → Option Content) × Nat) :
    (L.foldl (tryDelete delOk) st).2 = st.2 + sizeSum st.1 delOk L := by
  induction L generalizing st with
  | nil => simp [sizeSum]
  | cons g rest ih =>
    simp only [List.nodup_cons] at hnd
    simp only [List.foldl_cons]
    rw [ih hnd.2 _, sizeSum_cons, tryDelete_snd]
    have hcongr : sizeSum (tryDelete delOk st g).1 delOk rest =
        sizeSum st.1 delOk rest :=
      sizeSum_congr (fun f hf =>
        tryDelete_fst_ne delOk st g f (fun hh => hnd.1 (hh ▸ hf)))
    rw [hcongr]
    omega

/-- `delete_duplicates` is the delete loop over the concatenation of the
group tails. -/
theorem delete_eq_flat {K : Type} (delOk : FPath → Bool)
    (dups : List (K × List FPath)) (files : FPath → Option Content) :
    delete_duplicates delOk dups files =
      (dups.flatMap (fun g => g.2.tail)).foldl (tryDelete delOk) (files, 0) := by
  unfold delete_duplicates
  generalize (files, (0 : Nat)) = st
  induction dups generalizing st with
  | nil => rfl
  | cons g rest ih =>
    simp only [List.foldl_cons, List.flatMap_cons, List.foldl_append]
    exact ih _

theorem flatMap_tail_sublist {K : Type} (dups : List (K × List FPath)) :
    (dups.flatMap (fun g => g.2.tail)).Sublist
      (dups.flatMap (fun g => g.2)) := by
  induction dups with
  | nil => simp
  | cons g rest ih =>
    simp only [List.flatMap_cons]
    exact List.Sublist.append (List.tail_sublist g.2) ih

/-! ### Claim C5: delete preserves exactly the first file of each group -/

/-- Claim C5: `delete_duplicates` deletes every member of every group
except the first, and the first file of each group is never touched (its
state is preserved unconditionally); so when every deletion succeeds (each
later member exists and its unlink is allowed), exactly the first file of
each group remains. -/
theorem delete_keeps_first {K : Type} (delOk : FPath → Bool)
    (dups : List (K × List FPath)) (files : FPath → Option Content)
    (hnd : (dups.flatMap (fun g => g.2)).Nodup) :
    ∀ g ∈ dups,
      (∀ f ∈ g.2.tail, delOk f = true → (files f).isSome →
        (delete_duplicates delOk dups files).1 f = none) ∧
      (∀ f₀, g.2.head? = some f₀ →
        (delete_duplicates delOk dups files).1 f₀ = files f₀) := by
  have hndflat : (dups.flatMap (fun g => g.2.tail)).Nodup :=
    hnd.sublist (flatMap_tail_sublist dups)
  have hparts := List.nodup_flatMap.mp hnd
  intro g hg
  rw [delete_eq_flat]
  constructor
  · intro f hf hokf hsome
    have hflat : f ∈ dups.flatMap (fun g₂ => g₂.2.tail) :=
      List.mem_flatMap.mpr ⟨g, hg, hf⟩
    obtain ⟨c, hc⟩ := Option.isSome_iff_exists.mp hsome
    exact foldl_tryDelete_mem_none hndflat hflat hokf (files, 0) hc
  · intro f₀ hf₀
    have hcons : f₀ :: g.2.tail = g.2 := List.cons_head?_tail hf₀
    have hmem : f₀ ∈ g.2 := by
      rw [← hcons]
      simp
    have hout : f₀ ∉ dups.flatMap (fun g₂ => g₂.2.tail) := by
      intro hin
      obtain ⟨g', hg', hf₀g'⟩ := List.mem_flatMap.mp hin
      by_cases hgg : g' = g
      · subst hgg
        have hndg : g'.2.Nodup := hparts.1 g' hg'
        rw [← hcons] at hndg
        simp only [List.nodup_cons] at hndg
        exact hndg.1 hf₀g'
      · have hdisj := (hparts.2.forall
          (fun a b hab => List.Disjoint.symm hab)) hg' hg hgg
        exact hdisj (List.mem_of_mem_tail hf₀g') hmem
    exact foldl_tryDelete_not_mem hout (files, 0)

theorem delete_keeps_first_witness :
    (delete_duplicates (fun _ => true) [((0 : Nat), [0, 1]), (1, [2, 3])]
      (fun p => some [p])).1 1 = none ∧
    (delete_duplicates (fun _ => true) [((0 : Nat), [0, 1]), (1, [2, 3])]
      (fun p => some [p])).1 0 = some [0] ∧
    (delete_duplicates (fun _ => true) [((0 : Nat), [0, 1]), (1, [2, 3])]
      (fun p => some [p])).1 3 = none ∧
    (delete_duplicates (fun _ => true) [((0 : Nat), [0, 1]), (1, [2, 3])]
      (fun p => some [p])).1 2 = some [2] := by
  have hw := delete_keeps_first (fun _ => true)
    [((0 : Nat), [0, 1]), (1, [2, 3])] (fun p => some [p]) (by decide)
  have h₁ := hw ((0 : Nat), [0, 1]) (by decide)
  have h₂ := hw ((1 : Nat), [2, 3]) (by decide)
  exact ⟨h₁.1 1 (by decide) rfl rfl, h₁.2 0 rfl,
    h₂.1 3 (by decide) rfl rfl, h₂.2 2 rfl⟩

/-! ### Behaviour of the move loop -/

theorem countSucc_cons (files : FPath → Option Content) (ok : FPath → Bool)
    (f : FPath) (L : List FPath) :
    countSucc files ok (f :: L) =
      (if (files f).isSome && ok f then 1 else 0) + countSucc files ok L := by
  by_cases hp : ((files f).isSome && ok f) = true <;>
    simp [countSucc, List.filter_cons, hp, Nat.add_comm]

theorem countSucc_append (files : FPath → Option Content) (ok : FPath → Bool)
    (L₁ L₂ : List FPath) :
    countSucc files ok (L₁ ++ L₂) =
      countSucc files ok L₁ + countSucc files ok L₂ := by
  simp [countSucc, List.filter_append]

theorem countSucc_congr {files files₂ : FPath → Option Content}
    {ok : FPath → Bool} {L : List FPath}
    (hh : ∀ f ∈ L, files f = files₂ f) :
    countSucc files ok L = countSucc files₂ ok L := by
  unfold countSucc
  rw [List.filter_congr]
  intro f hf
  rw [hh f hf]

theorem tryMove_files_ne (moveOk : FPath → Bool) (sub : DirName)
    (st : MoveState × Nat × Nat) (f x : FPath) (hne : x ≠ f) :
    (tryMove moveOk sub st f).1.files x = st.1.files x := by
  unfold tryMove
  cases st.1.files f with
  | none => rfl
  | some c =>
    by_cases hok : moveOk f <;> simp [hok, hne]

theorem tryMove_dirs (moveOk : FPath → Bool) (sub : DirName)
    (st : MoveState × Nat × Nat) (f : FPath) :
    (tryMove moveOk sub st f).1.dirs = st.1.dirs := by
  unfold tryMove
  cases st.1.files f with
  | none => rfl
  | some c =>
    by_cases hok : moveOk f <;> simp [hok]

theorem tryMove_bytes (moveOk : FPath → Bool) (sub : DirName)
    (st : MoveState × Nat × Nat) (f : FPath) :
    (tryMove moveOk sub st f).2.1 = st.2.1 +
      (match st.1.files f with
       | some c => if moveOk f then c.length else 0
       | none => 0) := by
  unfold tryMove
  cases hc : st.1.files f with
  | none => simp
  | some c =>
    by_cases hok : moveOk f <;> simp [hok]

theorem tryMove_count (moveOk : FPath → Bool) (sub : DirName)
    (st : MoveState × Nat × Nat) (f : FPath) :
    (tryMove moveOk sub st f).2.2 = st.2.2 +
      (if (st.1.files f).isSome && moveOk f then 1 else 0) := by
  unfold tryMove
  cases hc : st.1.files f with
  | none => simp
  | some c =>
    by_cases hok : moveOk f <;> simp [hok]

theorem foldl_tryMove_not_mem {moveOk : FPath → Bool} {sub : DirName}
    {L : List FPath} {f : FPath} (hf : f ∉ L) (st : MoveState × Nat × Nat) :
    (L.foldl (tryMove moveOk sub) st).1.files f = st.1.files f := by
  induction L generalizing st with
  | nil => rfl
  | cons g rest ih =>
    have hne : f ≠ g := fun hh => hf (hh ▸ List.mem_cons_self g rest)
    have hrest : f ∉ rest := fun hh => hf (List.mem_cons_of_mem _ hh)
    simp only [List.foldl_cons]
    rw [ih hrest, tryMove_files_ne moveOk sub st g f hne]

theorem foldl_tryMove_mem_none {moveOk : FPath → Bool} {sub : DirName}
    {L : List FPath} (hnd : L.Nodup) {f : FPath} (hf : f ∈ L)
    (hok : moveOk f = true) (st : MoveState × Nat × Nat) {c : Content}
    (hc : st.1.files f = some c) :
    (L.foldl (tryMove moveOk sub) st).1.files f = none := by
  induction L generalizing st c with
  | nil => simp at hf
  | cons g rest ih =>
    simp only [List.nodup_cons] at hnd
    simp only [List.foldl_cons]
    rcases List.mem_cons.mp hf with hfg | hfr
    · subst hfg
      have hstep : (tryMove moveOk sub st f).1.files f = none := by
        simp [tryMove, hc, hok]
      rw [foldl_tryMove_not_mem hnd.1 _, hstep]
    · have hne : f ≠ g := fun hh => hnd.1 (hh ▸ hfr)
      exact ih hnd.2 hfr _ ((tryMove_files_ne moveOk sub st g f hne).trans hc)

theorem foldl_tryMove_dirs (moveOk : FPath → Bool) (sub : DirName)
    (L : List FPath) (st : MoveState × Nat × Nat) :
    (L.foldl (tryMove moveOk sub) st).1.dirs = st.1.dirs := by
  induction L generalizing st with
  | nil => rfl
  | cons g rest ih =>
    simp only [List.foldl_cons]
    rw [ih, tryMove_dirs]

theorem foldl_tryMove_bytes {moveOk : FPath → Bool} {sub : DirName}
    {L : List FPath} (hnd : L.Nodup) (st : MoveState × Nat × Nat) :
    (L.foldl (tryMove moveOk sub) st).2.1 =
      st.2.1 + sizeSum st.1.files moveOk L := by
  induction L generalizing st with
  | nil => simp [sizeSum]
  | cons g rest ih =>
    simp only [List.nodup_cons] at hnd
    simp only [List.foldl_cons]
    rw [ih hnd.2, sizeSum_cons, tryMove_bytes]
    have hcongr : sizeSum (tryMove moveOk sub st g).1.files moveOk rest =
        sizeSum st.1.files moveOk rest :=
      sizeSum_congr (fun f hf =>
        tryMove_files_ne moveOk sub st g f (fun hh => hnd.1 (hh ▸ hf)))
    rw [hcongr]
    omega

theorem foldl_tryMove_count {moveOk : FPath → Bool} {sub : DirName}
    {L : List FPath} (hnd : L.Nodup) (st : MoveState × Nat × Nat) :
    (L.foldl (tryMove moveOk sub) st).2.2 =
      st.2.2 + countSucc st.1.files moveOk L := by
  induction L generalizing st with
  | nil => simp [countSucc]
  | cons g rest ih =>
    simp only [List.nodup_cons] at hnd
    simp only [List.foldl_cons]
    rw [ih hnd.2, countSucc_cons, tryMove_count]
    have hcongr : countSucc (tryMove moveOk sub st g).1.files moveOk rest =
        countSucc st.1.files moveOk rest :=
      countSucc_congr (fun f hf =>
        tryMove_files_ne moveOk sub st g f (fun hh => hnd.1 (hh ▸ hf)))
    rw [hcongr]
    omega

/-- Full specification of the per-group move loop: when every subfolder
can be created, the loop never aborts; every file that exists and whose
move is allowed leaves its original location; all other locations are
untouched; and the two counters total exactly the successful moves. -/
theorem moveGroups_spec (mkdirOk : DirName → Bool) (moveOk : FPath → Bool)
    (out : DirName) (dups : List (String × List FPath)) :
    ∀ st : MoveState × Nat × Nat,
    (dups.map (fun g => g.1)).Nodup →
    (∀ d ∈ dups.map (fun g => g.1),
      (out ++ [d]) ∉ st.1.dirs ∧ mkdirOk (out ++ [d]) = true) →
    (dups.flatMap (fun g => g.2)).Nodup →
    ∃ fin, moveGroups mkdirOk moveOk out dups st = some fin ∧
      fin.2.1 = st.2.1 +
        sizeSum st.1.files moveOk (dups.flatMap (fun g => g.2)) ∧
      fin.2.2 = st.2.2 +
        countSucc st.1.files moveOk (dups.flatMap (fun g => g.2)) ∧
      (∀ f ∈ dups.flatMap (fun g => g.2), ∀ c, st.1.files f = some c →
        moveOk f = true → fin.1.files f = none) ∧
      (∀ f, f ∉ dups.flatMap (fun g => g.2) →
        fin.1.files f = st.1.files f) := by
  induction dups with
  | nil =>
    intro st _ _ _
    refine ⟨st, rfl, by simp [sizeSum], by simp [countSucc], ?_, ?_⟩
    · intro f hf
      simp at hf
    · intro f _
      rfl
  | cons g rest ih =>
    obtain ⟨d, fs⟩ := g
    intro st hkeys hfresh hflat
    simp only [List.map_cons, List.nodup_cons] at hkeys
    have hfreshd := hfresh d (by simp)
    have hmk : mkdirFS mkdirOk st.1.dirs (out ++ [d]) =
        some (st.1.dirs ++ [out ++ [d]]) := by
      simp [mkdirFS, hfreshd.1, hfreshd.2]
    simp only [moveGroups, hmk]
    set st2 := fs.foldl (tryMove moveOk (out ++ [d]))
      (⟨st.1.dirs ++ [out ++ [d]], st.1.files, st.1.relocated⟩, st.2) with hst2
    simp only [List.flatMap_cons] at hflat
    have hdisj := List.disjoint_of_nodup_append hflat
    have hfs_nd : fs.Nodup := hflat.of_append_left
    have hrest_nd : (rest.flatMap (fun g₂ => g₂.2)).Nodup :=
      hflat.of_append_right
    have h2files_ne : ∀ f, f ∉ fs → st2.1.files f = st.1.files f := by
      intro f hf
      exact foldl_tryMove_not_mem hf _
    have h2dirs : st2.1.dirs = st.1.dirs ++ [out ++ [d]] :=
      foldl_tryMove_dirs _ _ _ _
    have h2bytes : st2.2.1 = st.2.1 + sizeSum st.1.files moveOk fs :=
      foldl_tryMove_bytes hfs_nd _
    have h2count : st2.2.2 = st.2.2 + countSucc st.1.files moveOk fs :=
      foldl_tryMove_count hfs_nd _
    have hihfresh : ∀ d₂ ∈ rest.map (fun g₂ => g₂.1),
        (out ++ [d₂]) ∉ st2.1.dirs ∧ mkdirOk (out ++ [d₂]) = true := by
      intro d₂ hd₂
      have hp := hfresh d₂ (List.mem_cons_of_mem _ hd₂)
      refine ⟨?_, hp.2⟩
      rw [h2dirs]
      simp only [List.mem_append, List.mem_singleton]
      rintro (hin | hin)
      · exact hp.1 hin
      · have hdd : d₂ = d := by
          have := List.append_cancel_left hin
          simpa using this
        exact hkeys.1 (hdd ▸ hd₂)
    obtain ⟨fin, hfin, hc1, hc2, hdel, hkeep⟩ :=
      ih st2 hkeys.2 hihfresh hrest_nd
    have hcongr1 : sizeSum st2.1.files moveOk (rest.flatMap (fun g₂ => g₂.2)) =
        sizeSum st.1.files moveOk (rest.flatMap (fun g₂ => g₂.2)) :=
      sizeSum_congr (fun f hf => h2files_ne f (fun hffs => hdisj hffs hf))
    have hcongr2 : countSucc st2.1.files moveOk
        (rest.flatMap (fun g₂ => g₂.2)) =
        countSucc st.1.files moveOk (rest.flatMap (fun g₂ => g₂.2)) :=
      countSucc_congr (fun f hf => h2files_ne f (fun hffs => hdisj hffs hf))
    refine ⟨fin, hfin, ?_, ?_, ?_, ?_⟩
    · rw [hc1, hcongr1, h2bytes, List.flatMap_cons, sizeSum_append]
      have hred : sizeSum st.1.files moveOk ((d, fs).2) =
          sizeSum st.1.files moveOk fs := rfl
      rw [hred]
      omega
    · rw [hc2, hcongr2, h2count, List.flatMap_cons, countSucc_append]
      have hred : countSucc st.1.files moveOk ((d, fs).2) =
          countSucc st.1.files moveOk fs := rfl
      rw [hred]
      omega
    · intro f hf c hcf hmok
      rw [List.flatMap_cons, List.mem_append] at hf
      rcases hf with hffs | hfr
      · have hnone : st2.1.files f = none :=
          foldl_tryMove_mem_none hfs_nd hffs hmok _ hcf
        have hout : f ∉ rest.flatMap (fun g₂ => g₂.2) :=
          fun hfr => hdisj hffs hfr
        rw [hkeep f hout, hnone]
      · exact hdel f hfr c ((h2files_ne f
          (fun hffs => hdisj hffs hfr)).trans hcf) hmok
    · intro f hf
      rw [List.flatMap_cons, List.mem_append] at hf
      push_neg at hf
      rw [hkeep f hf.2, h2files_ne f hf.1]

/-! ### Claims about hashing (C2, C9) -/

/-- Claim C2: the partial digest (`full_scan = false`) is the digest of
exactly the first 4096 bytes of the file (all of it when shorter), and the
full digest (`full_scan = true`), accumulated over 4096-byte chunks, is the
digest of the entire content. -/
theorem get_hash_digest_correct {D : Type} (content : FPath → Content)
    (readOk : FPath → Bool → Bool) (h : Content → D) (p : FPath) :
    (readOk p false = true →
      get_hash content readOk h p false = some (h ((content p).take 4096)))
    ∧ (readOk p true = true →
      get_hash content readOk h p true = some (h (content p))) :=
  ⟨get_hash_partial_eq content readOk h p, get_hash_full_eq content readOk h p⟩

theorem get_hash_digest_correct_witness :
    get_hash (fun _ => [1, 2]) (fun _ _ => true) (fun c => c) 0 false =
      some [1, 2] ∧
    get_hash (fun _ => [1, 2]) (fun _ _ => true) (fun c => c) 0 true =
      some [1, 2] := by
  have hw := get_hash_digest_correct (fun _ => [1, 2]) (fun _ _ => true)
    (fun c => c) 0
  exact ⟨(hw.1 rfl).trans (by decide), (hw.2 rfl).trans (by decide)⟩

/-- Claim C9: for a file of at most 4096 bytes, the partial digest equals
the full digest. -/
theorem small_file_digests_agree {D : Type} (content : FPath → Content)
    (readOk : FPath → Bool → Bool) (h : Content → D) (p : FPath)
    (hlen : (content p).length ≤ 4096) (hr1 : readOk p false = true)
    (hr2 : readOk p true = true) :
    get_hash content readOk h p false = get_hash content readOk h p true := by
  rw [get_hash_partial_eq content readOk h p hr1,
    get_hash_full_eq content readOk h p hr2, List.take_of_length_le hlen]

theorem small_file_digests_agree_witness :
    get_hash (fun _ => [7]) (fun _ _ => true) (fun c => c) 0 false =
      get_hash (fun _ => [7]) (fun _ _ => true) (fun c => c) 0 true :=
  small_file_digests_agree (fun _ => [7]) (fun _ _ => true) (fun c => c) 0
    (by decide) rfl rfl

/-! ### Claim C3: no partial-hash collision means an immediate empty result -/

/-- Claim C3: when no two input files share a partial digest, the candidate
list is empty and `get_duplicates` returns the empty grouping immediately;
no full-content hashing is performed — witnessed by the fact that the
result does not depend on `readOk · true`, so it holds even when every
full-scan read would fail. -/
theorem no_shared_digest_empty {D : Type} [DecidableEq D]
    (content : FPath → Content) (readOk : FPath → Bool → Bool)
    (h : Content → D) (files : List FPath)
    (hro1 : ∀ p, readOk p false = true)
    (hnd : (files.map (fun f => h ((content f).take 4096))).Nodup) :
    get_duplicates content readOk h files = some [] := by
  unfold get_duplicates
  rw [groupFiles_eq_foldl (fun f => h ((content f).take 4096)) files []
    (fun f _ => get_hash_partial_eq content readOk h f (hro1 f))]
  have hbg : List.foldl
      (fun a f => addToGroup a (h ((content f).take 4096)) f) [] files =
      buildGroups (fun f => h ((content f).take 4096)) files := rfl
  simp only [hbg]
  have hfilter : (buildGroups (fun f => h ((content f).take 4096))
      files).filter (fun g => decide (1 < g.2.length)) = [] := by
    rw [List.filter_eq_nil_iff]
    intro g hg
    obtain ⟨d, ps⟩ := g
    have hps := group_eq_filter hg
    simp only [decide_eq_true_eq, not_lt]
    calc ps.length = (files.filter
          (fun f => decide (h ((content f).take 4096) = d))).length := by
          rw [hps]
      _ ≤ 1 := filter_hash_length_le_one hnd d
  rw [hfilter]
  simp

theorem no_shared_digest_empty_witness :
    get_duplicates (fun p => [p]) (fun _ b => !b) (fun c => c) [0, 1] =
      some [] :=
  no_shared_digest_empty (fun p => [p]) (fun _ b => !b) (fun c => c) [0, 1]
    (fun _ => rfl) (by decide)

/-! ### Claim C6: per-file fault tolerance of Move and Delete -/

/-- Claim C6: in both Move and Delete, an `OSError` on one file is caught
locally and the loop continues — every other file that exists and whose
operation is allowed is still relocated or deleted — and the byte (and,
for Move, file) counters total exactly the files whose operation
succeeded (`sizeSum`/`countSucc` give failed files a zero contribution). -/
theorem per_file_failures_tolerated :
    (∀ (K : Type) (delOk : FPath → Bool) (dups : List (K × List FPath))
      (files : FPath → Option Content),
      (dups.flatMap (fun g => g.2.tail)).Nodup →
      (delete_duplicates delOk dups files).2 =
        sizeSum files delOk (dups.flatMap (fun g => g.2.tail)) ∧
      (∀ f ∈ dups.flatMap (fun g => g.2.tail), ∀ c, files f = some c →
        delOk f = true → (delete_duplicates delOk dups files).1 f = none))
    ∧ (∀ (mkdirOk : DirName → Bool) (moveOk : FPath → Bool)
      (dups : List (String × List FPath)) (files : FPath → Option Content)
      (dirs : List DirName) (out : DirName),
      out ∉ dirs → mkdirOk out = true →
      (dups.map (fun g => g.1)).Nodup →
      (∀ d ∈ dups.map (fun g => g.1), (out ++ [d]) ∉ dirs ∧
        mkdirOk (out ++ [d]) = true) →
      (dups.flatMap (fun g => g.2)).Nodup →
      ∃ fin, move_duplicates mkdirOk moveOk dups files dirs out = some fin ∧
        fin.2.1 = sizeSum files moveOk (dups.flatMap (fun g => g.2)) ∧
        fin.2.2 = countSucc files moveOk (dups.flatMap (fun g => g.2)) ∧
        (∀ f ∈ dups.flatMap (fun g => g.2), ∀ c, files f = some c →
          moveOk f = true → fin.1.files f = none)) := by
  constructor
  · intro K delOk dups files hnd
    rw [delete_eq_flat]
    refine ⟨?_, ?_⟩
    · have := foldl_tryDelete_count delOk hnd (files, 0)
      simpa using this
    · intro f hf c hc hok
      exact foldl_tryDelete_mem_none hnd hf hok (files, 0) hc
  · intro mkdirOk moveOk dups files dirs out hnew hok hkeys hfresh hflat
    unfold move_duplicates
    have hmk : mkdirFS mkdirOk dirs out = some (dirs ++ [out]) := by
      simp [mkdirFS, hnew, hok]
    rw [hmk]
    have hfresh2 : ∀ d ∈ dups.map (fun g => g.1),
        (out ++ [d]) ∉ (⟨dirs ++ [out], files, []⟩ : MoveState).dirs ∧
        mkdirOk (out ++ [d]) = true := by
      intro d hd
      obtain ⟨hd1, hd2⟩ := hfresh d hd
      refine ⟨?_, hd2⟩
      simp only [List.mem_append, List.mem_singleton]
      rintro (hin | hin)
      · exact hd1 hin
      · have := congrArg List.length hin
        simp at this
    obtain ⟨fin, hfin, hc1, hc2, hdel, _⟩ :=
      moveGroups_spec mkdirOk moveOk out dups
        (⟨dirs ++ [out], files, []⟩, 0, 0) hkeys hfresh2 hflat
    exact ⟨fin, hfin, by simpa using hc1, by simpa using hc2, hdel⟩

theorem per_file_failures_tolerated_witness :
    ((delete_duplicates (fun _ => true) [((0 : Nat), [0, 1, 2])]
        (fun p => some [p])).2 =
      sizeSum (fun p => some [p]) (fun _ => true)
        ([((0 : Nat), [0, 1, 2])].flatMap (fun g => g.2.tail)) ∧
      (∀ f ∈ [((0 : Nat), [0, 1, 2])].flatMap (fun g => g.2.tail),
        ∀ c, (fun p => some [p]) f = some c → (fun _ => true) f = true →
        (delete_duplicates (fun _ => true) [((0 : Nat), [0, 1, 2])]
          (fun p => some [p])).1 f = none)) ∧
    (∃ fin, move_duplicates (fun _ => true) (fun _ => true)
        [("a", [0, 1])] (fun p => some [p]) [] ["o"] = some fin ∧
      fin.2.1 = sizeSum (fun p => some [p]) (fun _ => true)
        ([(("a" : String), [0, 1])].flatMap (fun g => g.2)) ∧
      fin.2.2 = countSucc (fun p => some [p]) (fun _ => true)
        ([(("a" : String), [0, 1])].flatMap (fun g => g.2)) ∧
      (∀ f ∈ [(("a" : String), [0, 1])].flatMap (fun g => g.2),
        ∀ c, (fun p => some [p]) f = some c → (fun _ => true) f = true →
        fin.1.files f = none)) :=
  ⟨per_file_failures_tolerated.1 Nat (fun _ => true) [((0 : Nat), [0, 1, 2])]
      (fun p => some [p]) (by decide),
   per_file_failures_tolerated.2 (fun _ => true) (fun _ => true)
      [("a", [0, 1])] (fun p => some [p]) [] ["o"]
      (by simp) rfl (by simp) (fun d hd => ⟨by simp, rfl⟩) (by decide)⟩

/-! ### Claim C7: Move fails fatally on an existing destination -/

/-- Claim C7: when the destination directory already exists or cannot be
created, `move_duplicates` aborts with the uncaught `os.mkdir` error
before relocating anything — no state results, so it never merges into a
pre-existing destination directory. -/
theorem move_fatal_existing_dest (mkdirOk : DirName → Bool)
    (moveOk : FPath → Bool) (dups : List (String × List FPath))
    (files : FPath → Option Content) (dirs : List DirName) (out : DirName)
    (hbad : out ∈ dirs ∨ mkdirOk out = false) :
    move_duplicates mkdirOk moveOk dups files dirs out = none := by
  unfold move_duplicates mkdirFS
  rcases hbad with hbad | hbad
  · simp [hbad]
  · by_cases hmem : out ∈ dirs <;> simp [hbad, hmem]

theorem move_fatal_existing_dest_witness :
    move_duplicates (fun _ => true) (fun _ => true) [("a", [0, 1])]
      (fun p => some [p]) [["o"]] ["o"] = none :=
  move_fatal_existing_dest (fun _ => true) (fun _ => true) [("a", [0, 1])]
    (fun p => some [p]) [["o"]] ["o"] (Or.inl (by simp))

/-! ### Claim C10: Move creates the destination even for an empty set -/

/-- Claim C10: `os.mkdir(output_folder)` runs before the group loop, so
`move_duplicates` on an empty `DuplicateSet` still creates the destination
directory (and changes nothing else, with both counters at zero). -/
theorem move_creates_dest_when_empty (mkdirOk : DirName → Bool)
    (moveOk : FPath → Bool) (files : FPath → Option Content)
    (dirs : List DirName) (out : DirName) (hnew : out ∉ dirs)
    (hok : mkdirOk out = true) :
    move_duplicates mkdirOk moveOk [] files dirs out =
      some (⟨dirs ++ [out], files, []⟩, 0, 0) := by
  unfold move_duplicates mkdirFS moveGroups
  simp [hnew, hok]

theorem move_creates_dest_when_empty_witness :
    move_duplicates (fun _ => true) (fun _ => true) [] (fun _ => none)
      [] ["o"] = some (⟨[["o"]], fun _ => none, []⟩, 0, 0) := by
  have hw := move_creates_dest_when_empty (fun _ => true) (fun _ => true)
    (fun _ => none) [] ["o"] (by simp) rfl
  simpa using hw

/-! ### Claim C8: hashing errors abort detection -/

/-- Claim C8: an I/O error raised while hashing — in phase 1 on any input
file, or in phase 2 on any candidate — is not caught inside
`get_duplicates`: the whole detection aborts (`none`) and no partial
`DuplicateSet` is returned. -/
theorem hash_error_aborts {D : Type} [DecidableEq D] :
    (∀ (content : FPath → Content) (readOk : FPath → Bool → Bool)
      (h : Content → D) (files : List FPath) (f : FPath),
      f ∈ files → readOk f false = false →
      get_duplicates content readOk h files = none)
    ∧ (∀ (content : FPath → Content) (readOk : FPath → Bool → Bool)
      (h : Content → D) (files : List FPath) (f : FPath),
      (∀ p, readOk p false = true) →
      f ∈ candsOf (fun f₂ => h ((content f₂).take 4096)) files →
      readOk f true = false →
      get_duplicates content readOk h files = none) := by
  constructor
  · intro content readOk h files f hf hro
    unfold get_duplicates
    rw [groupFiles_eq_none hf (by simp [get_hash, hro]) []]
  · intro content readOk h files f hro1 hfc hro
    unfold get_duplicates
    rw [groupFiles_eq_foldl (fun f₂ => h ((content f₂).take 4096)) files []
      (fun f₂ _ => get_hash_partial_eq content readOk h f₂ (hro1 f₂))]
    have hbg : List.foldl
        (fun a f₂ => addToGroup a (h ((content f₂).take 4096)) f₂) [] files =
        buildGroups (fun f₂ => h ((content f₂).take 4096)) files := rfl
    simp only [hbg]
    have hcand : ((buildGroups (fun f₂ => h ((content f₂).take 4096))
          files).filter (fun g => decide (1 < g.2.length))).flatMap
        (fun g => g.2) =
        candsOf (fun f₂ => h ((content f₂).take 4096)) files := rfl
    simp only [hcand]
    have hfalse : (candsOf (fun f₂ => h ((content f₂).take 4096))
        files).isEmpty = false := by
      rcases hempty : (candsOf (fun f₂ => h ((content f₂).take 4096))
          files).isEmpty with _ | _
      · rfl
      · exact absurd (List.isEmpty_iff.mp hempty ▸ hfc) (List.not_mem_nil f)
    rw [hfalse]
    simp only [Bool.false_eq_true, if_false]
    rw [groupFiles_eq_none hfc (by simp [get_hash, hro]) []]

theorem hash_error_aborts_witness :
    get_duplicates (fun _ => [1]) (fun _ _ => false) (fun c => c) [0] =
      none ∧
    get_duplicates (fun _ => [1]) (fun _ b => !b) (fun c => c) [0, 1] =
      none :=
  ⟨hash_error_aborts.1 (fun _ => [1]) (fun _ _ => false) (fun c => c) [0] 0
      (by decide) rfl,
   hash_error_aborts.2 (fun _ => [1]) (fun _ b => !b) (fun c => c) [0, 1] 0
      (fun _ => rfl) (by decide) rfl⟩

end DupFinder
